import Mathlib

/-!
A shallow embedding of the goq declarative HTML unmarshaler (src/unmarshal.go
and the pointer-indirection helper), together with theorems settling the
frozen claims about it.

Modelling conventions:
* A goquery selection is a list of document nodes (`List Node`); the
  document tree is a rose tree.  The external selection provider
  (goquery/cascadia) is out of scope per the spec, so selector matching,
  preprocessing directives and the literal string parsers are parameters,
  collected in `Env`.
* goquery struct tags stay `String`s, exactly as `type goqueryTag string`;
  `goSplit` is `strings.Split(tag, ",")` for the comma separator, which is
  the only separator the source ever uses.
* Go runtime panics (out-of-range string/array indexing reachable in the
  tag helpers) are modelled by `Option`/`DRes.panic`.
* The mutating decode of Go is modelled by state passing: every decoder
  takes the destination's current value and returns the updated value
  together with an optional error, so partial updates made before a
  failure stay observable, as they are through Go pointers.
* Recursion depth is an explicit fuel (`Nat`): Go's decode recursion has no
  structural termination guarantee of its own (a recursive type whose
  selection never shrinks overflows the Go stack), and fuel exhaustion is
  modelled as `DRes.panic`.
-/

/-! ## Document model (the external provider's node tree) -/

mutual
/-- A document node: element name, attribute list, immediate text content,
and child forest.  Mirrors the fragment of `*html.Node` the decoder
observes through the goquery capabilities it invokes. -/
inductive Node : Type where
  | mk (name : String) (attrs : List (String × String)) (text : String) (kids : Forest)
/-- A list of sibling nodes, as a mutual inductive so that recursion over
the tree is structural and kernel-reducible. -/
inductive Forest : Type where
  | nil
  | cons (hd : Node) (tl : Forest)
end

/-- Convert a forest to a plain list of nodes. -/
def Forest.toList : Forest → List Node
  | .nil => []
  | .cons h t => h :: Forest.toList t

/-- Build a forest from a list of nodes (used to write concrete trees). -/
def forestOf : List Node → Forest
  | [] => .nil
  | h :: t => .cons h (forestOf t)

/-- The element name of a node. -/
def nodeName : Node → String
  | .mk n _ _ _ => n

/-- The attribute list of a node. -/
def nodeAttrs : Node → List (String × String)
  | .mk _ a _ _ => a

/-- The child forest of a node. -/
def nodeKids : Node → Forest
  | .mk _ _ _ k => k

/-- The children of a node as a list. -/
def kidsOf (n : Node) : List Node := (nodeKids n).toList

mutual
/-- Number of nodes in the tree rooted at a node. -/
def nodeSize : Node → Nat
  | .mk _ _ _ kids => 1 + forestSize kids
/-- Number of nodes in a forest. -/
def forestSize : Forest → Nat
  | .nil => 0
  | .cons h t => nodeSize h + forestSize t
end

/-- Number of nodes in all trees of a selection. -/
def totalSize : List Node → Nat
  | [] => 0
  | n :: rest => nodeSize n + totalSize rest

mutual
/-- Concatenated text of a node's subtree, mirroring goquery `Text()` on a
single node. -/
def nodeText : Node → String
  | .mk _ _ t kids => t ++ forestText kids
/-- Concatenated text of a forest. -/
def forestText : Forest → String
  | .nil => ""
  | .cons h t => nodeText h ++ forestText t
end

/-- goquery `Selection.Text()`: concatenated subtree text over all matched
nodes. -/
def selText : List Node → String
  | [] => ""
  | n :: rest => nodeText n ++ selText rest

/-- Render an attribute list as markup text. -/
def renderAttrs (attrs : List (String × String)) : String :=
  attrs.foldl (fun acc p => acc ++ " " ++ p.1 ++ "=\x22" ++ p.2 ++ "\x22") ""

mutual
/-- Serialize a node to markup, a simple model of the provider's HTML
rendering. -/
def nodeRender : Node → String
  | .mk nm attrs t kids =>
    "<" ++ nm ++ renderAttrs attrs ++ ">" ++ t ++ forestRender kids ++ "</" ++ nm ++ ">"
/-- Serialize a forest to markup. -/
def forestRender : Forest → String
  | .nil => ""
  | .cons h t => nodeRender h ++ forestRender t
end

/-- goquery `Selection.Html()`: serialized inner markup of the first
matched node; the empty-selection error is discarded by the source
(`str, _ := s.Html()`), leaving the empty string. -/
def selHtml : List Node → String
  | [] => ""
  | .mk _ _ t kids :: _ => t ++ forestRender kids

/-- goquery `Selection.Attr(name)`: the named attribute of the first
matched node; `("", false)` on a miss or an empty selection becomes "". -/
def selAttr (name : String) : List Node → String
  | [] => ""
  | n :: _ =>
    match (nodeAttrs n).lookup name with
    | some v => v
    | none => ""

mutual
/-- A node together with all of its descendants, in document order. -/
def nodeSelfDesc : Node → List Node
  | .mk nm a t kids => .mk nm a t kids :: forestSelfDesc kids
/-- All nodes of a forest, each with its descendants, in document order. -/
def forestSelfDesc : Forest → List Node
  | .nil => []
  | .cons h t => nodeSelfDesc h ++ forestSelfDesc t
end

/-- goquery `Selection.Children()`: the direct children of every matched
node (node de-duplication is irrelevant on tree-shaped selections). -/
def childrenOf (s : List Node) : List Node := s.flatMap kidsOf

/-- goquery `Selection.Find(selStr)`: the strict descendants of every
matched node that satisfy the provider's matcher for the selector. -/
def findSel (p : Node → Bool) (s : List Node) : List Node :=
  (s.flatMap fun n => forestSelfDesc (nodeKids n)).filter p

/-- ASCII whitespace recognized by the trimming model of
`strings.TrimSpace`. -/
def isSpaceChar (c : Char) : Bool :=
  c = ' ' || c = '\t' || c = '\n' || c = '\r' || c = '\x0b' || c = '\x0c'

/-- `strings.TrimSpace`: drop leading and trailing whitespace. -/
def goTrim (s : String) : String :=
  String.mk (((s.data.dropWhile isSpaceChar).reverse.dropWhile isSpaceChar).reverse)

/-! ## The annotation string (`type goqueryTag string`) -/

/-- Model of `strings.Split(s, sep)` for a one-character separator, the only form
the source uses (always with `,`). -/
def splitAux (sep : Char) : List Char → List Char → List String
  | [], acc => [String.mk acc.reverse]
  | c :: cs, acc =>
    if c = sep then String.mk acc.reverse :: splitAux sep cs []
    else splitAux sep cs (c :: acc)

/-- Model of `strings.Split(string(tag), ",")`, the token list every tag helper in
the source starts from. -/
def goSplit (s : String) : List String := splitAux ',' s.data []

/-- Model of `strings.Join(arr, ",")`, used by `popVal` to rebuild a tag. -/
def goJoin : List String → String
  | [] => ""
  | [a] => a
  | a :: rest => a ++ "," ++ goJoin rest

/-- The directive marker `prePfx = '!'`. -/
def prePfx : Char := '!'

/-- The reserved tag `ignoreTag = "!ignore"`. -/
def ignoreTag : String := "!ignore"

/-- The first comma token of a tag (tags always have at least one). -/
def headTok (tag : String) : String :=
  match goSplit tag with
  | [] => ""
  | t :: _ => t

/-- Whether a token begins with the directive marker; the source tests
this with `tok[0] == prePfx`, which panics on an empty token. -/
def startsBang (s : String) : Bool :=
  match s.data with
  | [] => false
  | c :: _ => c = prePfx

/-! ## The decoder's environment: the external collaborators -/

/-- The capabilities the decoder consumes from outside, kept abstract per
the spec: the provider's selector matcher; the zero-argument selection
methods reachable by reflection from `preprocess` (`none` models
`!v.IsValid()`, an inner `none` models a method whose result is not a
`*goquery.Selection`); and the `strconv` parsers used by
`unmarshalLiteral`, which return either a value or an error message. -/
structure Env where
  matchSel : String → Node → Bool
  dirs : String → Option (List Node → Option (List Node))
  parseBool : String → Except String Bool
  parseInt : String → Except String Int
  parseUint : String → Except String Nat

/-- The directive loop of `goqueryTag.preprocess`, running over the comma
tokens: while the token before the last exists and starts with `prePfx`,
look the method up (`return s` as-is when invalid) and replace the
selection when the call yields one.  Reading `arr[offset][0]` of an empty
token is a Go runtime panic, modelled as `none`. -/
def preprocessAux (env : Env) : List String → List Node → Option (List Node)
  | [], s => some s
  | [_], s => some s
  | tok :: rest, s =>
    match tok.data with
    | [] => none
    | c :: cs =>
      if c = prePfx then
        match env.dirs (String.mk cs) with
        | none => some s
        | some f =>
          match f s with
          | some s2 => preprocessAux env rest s2
          | none => preprocessAux env rest s
      else some s

/-- Model of `goqueryTag.preprocess`: apply the leading preprocessing directives of
the tag to the selection. -/
def preprocess (env : Env) (tag : String) (s : List Node) : Option (List Node) :=
  preprocessAux env (goSplit tag) s

/-- The offset loop of `goqueryTag.selector`: count leading tokens that
start with `prePfx`; reading the first byte of an empty token panics
(`none`). -/
def skipDirs : List String → Option Nat
  | [] => some 0
  | tok :: rest =>
    match tok.data with
    | [] => none
    | c :: _ => if c = prePfx then (skipDirs rest).map (· + 1) else some 0

/-- Model of `goqueryTag.selector(which)`: return "" when `which` is beyond the
token list, otherwise skip the directive tokens and index
`arr[which+offset]`; the out-of-range read is a Go panic (`none`). -/
def selector (tag : String) (which : Nat) : Option String :=
  let arr := goSplit tag
  if which > arr.length - 1 then some ""
  else
    match skipDirs arr with
    | none => none
    | some offset => arr.get? (which + offset)

/-- Model of `goqueryTag.popVal`: keep the first comma token, drop the second, keep
the rest, and rejoin. -/
def popVal (tag : String) : String :=
  match goSplit tag with
  | [] => tag
  | [_] => tag
  | a :: _ :: rest => goJoin (a :: rest)

/-- The three value functions a tag can resolve to (`textVal`, `htmlVal`,
`attrFunc`). -/
inductive VF : Type where
  | text
  | html
  | attr (name : String)
  deriving DecidableEq

/-- The switch of `goqueryTag.valFunc` on the raw second comma token
`src`: `src[0] == '['` (a panic when `src` is empty, modelled `none`)
yields attribute extraction on `src[1:len(src)-1]` (a panic when `src`
is just `"["`), the literal `"html"` yields markup extraction, and
`"text"` or anything else yields text extraction. -/
def resolveTok (src : String) : Option VF :=
  match src.data with
  | [] => none
  | c :: cs =>
    if c = '[' then
      match cs with
      | [] => none
      | _ :: _ => some (.attr (String.mk cs.dropLast))
    else if src = "html" then some .html
    else if src = "text" then some .text
    else some .text

/-- Model of `goqueryTag.valFunc` without its cache (the cache is a pure
memoization keyed by the tag and is not observable): fewer than two
comma tokens resolve to text extraction, otherwise the raw second token
decides via `resolveTok`. -/
def valFunc (tag : String) : Option VF :=
  match goSplit tag with
  | [] => some .text
  | [_] => some .text
  | _ :: src :: _ => resolveTok src

/-- Run a resolved value function on a selection: `textVal` trims the
selection's text, `htmlVal` trims the first node's inner markup,
`attrFunc` reads the first node's attribute untrimmed. -/
def applyVF : VF → List Node → String
  | .text, s => goTrim (selText s)
  | .html, s => goTrim (selHtml s)
  | .attr a, s => selAttr a s

/-! ## Destination model: shapes, values, errors -/

/-- A Go runtime value of the shapes the decoder populates.  Composite
zeros are represented lazily: `varr []`, `vstruct []`, `vmap []` denote
the all-zero composite, and the accessors below materialize missing
components with zero values on demand, mirroring `reflect.New`. -/
inductive Val : Type where
  | vstr (s : String)
  | vint (n : Int)
  | vuint (n : Nat)
  | vbool (b : Bool)
  | vcomplex
  | varr (xs : List Val)
  | vslice (xs : List Val)
  | vmap (entries : List (Val × Val))
  | vstruct (fields : List (String × Val))
  | vnodes (ns : List Node)

/-- A destination type, the tagged-variant view of the `reflect.Type`
dispatch in `unmarshalByType`: scalars handled by `unmarshalLiteral`
(`tcomplex` stands for the kinds, such as `reflect.Complex128`, that
reach `unmarshalLiteral` but have no case in its switch), fixed arrays,
slices, maps, structs whose fields carry a name, a goquery tag and a
type, the `[]*html.Node` capture slot, pointers, and types implementing
the `Unmarshaler` interface, represented by their `UnmarshalHTML`
routine. -/
inductive Ty : Type where
  | tstr
  | tint
  | tuint
  | tbool
  | tcomplex
  | tarr (n : Nat) (e : Ty)
  | tslice (e : Ty)
  | tmap (key val : Ty)
  | tstruct (fields : List (String × String × Ty))
  | tnodes
  | tptr (e : Ty)
  | tcustom (f : List Node → Except String Val)

/-- The closed error taxonomy of `CannotUnmarshalError.Reason`.
Modelled from the spec: the error type's own file is not under src/, but
each constant below is referenced by name in src/unmarshal.go. -/
inductive Reason : Type where
  | nonPointer
  | nilValue
  | customUnmarshalError
  | typeConversionError
  | arrayLengthMismatch
  | missingValueSelector
  | mapKeyUnmarshalError
  deriving DecidableEq

/-- The `FldOrIdx interface{}` fields of `CannotUnmarshalError`: a struct
field name, a sequence index, or a decoded map key. -/
inductive FldIdx : Type where
  | fld (name : String)
  | idx (i : Nat)
  | key (k : Val)

/-- The structured decode error.
Modelled from the spec: `CannotUnmarshalError` (reason, destination
value, offending literal string, field-or-index, nested cause) lives
outside src/, with every construction site visible in src/unmarshal.go;
`leaf` stands for an arbitrary non-`CannotUnmarshalError` inner error
(a `strconv` error or a custom decoder's error), and the destination
`reflect.Value` is modelled by its type. -/
inductive UErr : Type where
  | leaf (msg : String)
  | can (reason : Reason) (v : Option Ty) (val : Option String)
        (fldOrIdx : Option FldIdx) (err : Option UErr)

/-- The outcome of a decode step: a Go runtime panic, or the updated
destination value together with an optional error (Go mutates the
destination through pointers before returning the error, so a failing
decode still leaves a partially updated value behind). -/
inductive DRes : Type where
  | panic
  | res (v : Val) (e : Option UErr)

/-- The `indirect` helper's capability probe: does the type expose an
`UnmarshalHTML` routine at any pointer-indirection depth?  `indirect`
checks every pointer level it peels (allocating empty values as it goes,
which the value model absorbs) and also takes the address of addressable
named non-pointer values, so a bare `tcustom` is found too. -/
def findCustom : Ty → Option (List Node → Except String Val)
  | .tptr t => findCustom t
  | .tcustom f => some f
  | _ => none

/-- The non-pointer type `indirect` finally lands on when no custom
decoder is found. -/
def stripPtr : Ty → Ty
  | .tptr t => stripPtr t
  | t => t

/-- The zero value `reflect.New(TypeDeref(t)).Elem()` denotes, in the
lazy composite representation (see `Val`). -/
def zeroVal : Ty → Val
  | .tstr => .vstr ""
  | .tint => .vint 0
  | .tuint => .vuint 0
  | .tbool => .vbool false
  | .tcomplex => .vcomplex
  | .tarr _ _ => .varr []
  | .tslice _ => .vslice []
  | .tmap _ _ => .vmap []
  | .tstruct _ => .vstruct []
  | .tnodes => .vnodes []
  | .tptr t => zeroVal t
  | .tcustom _ => .vstr ""

/-- View a value as a fixed-array element list. -/
def asArr : Val → List Val
  | .varr xs => xs
  | _ => []

/-- View a value as a slice element list. -/
def asSlice : Val → List Val
  | .vslice xs => xs
  | _ => []

/-- View a value as map entries (Go's `v.IsNil()` nil map and the empty
map both read as no entries). -/
def asMap : Val → List (Val × Val)
  | .vmap es => es
  | _ => []

/-- View a value as the list of its struct field values. -/
def asStructVals : Val → List Val
  | .vstruct fs => fs.map Prod.snd
  | _ => []

/-- View a value as a captured node list. -/
def asNodes : Val → List Node
  | .vnodes ns => ns
  | _ => []

/-- Materialize the lazily-zero components of a composite: pad a value
list with the zero values of the remaining component types. -/
def padZeros (tys : List Ty) (vs : List Val) : List Val :=
  vs.take tys.length ++ (tys.drop vs.length).map zeroVal

/-- Go map key equality, defined on the scalar keys the model exercises;
non-scalar comparable keys are modelled as never equal. -/
def keyEq : Val → Val → Bool
  | .vstr a, .vstr b => a == b
  | .vint a, .vint b => a == b
  | .vuint a, .vuint b => a == b
  | .vbool a, .vbool b => a == b
  | _, _ => false

/-- Model of `v.SetMapIndex(newK, newV)`: replace the value stored at an equal
key, else add the entry. -/
def setMapIndex (es : List (Val × Val)) (k v : Val) : List (Val × Val) :=
  match es with
  | [] => [(k, v)]
  | (k0, v0) :: rest =>
    if keyEq k0 k then (k0, v) :: rest else (k0, v0) :: setMapIndex rest k v

/-! ## The decoder -/

/-- Invoke a custom decoder on the matched nodes, wrapping its failure
exactly as `wrapUnmErr` does (`Reason: customUnmarshalError`, the zero
`reflect.Value` returned alongside the `Unmarshaler`, and the inner
error as cause). -/
def applyCustom (f : List Node → Except String Val) (s : List Node) (init : Val) : DRes :=
  match f s with
  | .error m => .res init (some (.can .customUnmarshalError none none none (some (.leaf m))))
  | .ok v => .res v none

/-- Model of `unmarshalLiteral` together with the wrapping its caller applies: the
switch on the destination kind parses the extracted string with the
corresponding `strconv` parser, a parse failure is wrapped by
`unmarshalByType` as `typeConversionError` carrying the offending string
and the destination, a string destination is set directly, and any kind
with no case in the switch falls through with no error, leaving the
destination value untouched. -/
def unmarshalLiteral (env : Env) (str : String) (t : Ty) (init : Val) : DRes :=
  match t with
  | .tbool =>
    match env.parseBool str with
    | .ok b => .res (.vbool b) none
    | .error m =>
      .res init (some (.can .typeConversionError (some t) (some str) none (some (.leaf m))))
  | .tint =>
    match env.parseInt str with
    | .ok n => .res (.vint n) none
    | .error m =>
      .res init (some (.can .typeConversionError (some t) (some str) none (some (.leaf m))))
  | .tuint =>
    match env.parseUint str with
    | .ok n => .res (.vuint n) none
    | .error m =>
      .res init (some (.can .typeConversionError (some t) (some str) none (some (.leaf m))))
  | .tstr => .res (.vstr str) none
  | _ => .res init none

/-- The field loop of `unmarshalStruct`, parameterized by the recursive
decode `recur` (which `unmarshalByType` instantiates with one unit less
fuel).  Per field: the `"!ignore"` tag skips the field outright; an empty
tag on a field without the custom-decoder capability skips it too; else
the field's tag is preprocessed against the struct's selection, a
non-empty tag narrows by `Find` on selector slot 0, and the field decode
runs, its failure wrapped with the struct and the field name.  `acc`
holds the already processed field values; on failure the remaining
fields keep their prior values. -/
def structLoop (env : Env) (recur : List Node → Ty → Val → String → DRes)
    (stTy : Ty) (s : List Node) :
    List ((String × String × Ty) × Val) → List (String × Val) → DRes
  | [], acc => .res (.vstruct acc) none
  | ((name, ftag, fty), iv) :: rest, acc =>
    if ftag == ignoreTag then
      structLoop env recur stTy s rest (acc ++ [(name, iv)])
    else if ftag == "" && (findCustom fty).isNone then
      structLoop env recur stTy s rest (acc ++ [(name, iv)])
    else
      match preprocess env ftag s with
      | none => .panic
      | some sel =>
        match
          (if ftag == "" then some sel
           else (selector ftag 0).map fun q => findSel (env.matchSel q) sel) with
        | none => .panic
        | some sel2 =>
          match recur sel2 fty iv ftag with
          | .panic => .panic
          | .res v (some e) =>
            .res (.vstruct (acc ++ (name, v) :: rest.map fun p => (p.1.1, p.2)))
                 (some (.can .typeConversionError (some stTy) none (some (.fld name)) (some e)))
          | .res v none => structLoop env recur stTy s rest (acc ++ [(name, v)])

/-- The element loop of `unmarshalSlice`: decode each matched node into a
fresh zero element, abort on the first failure (wrapped with the slice
and the index; the destination slice is untouched because `slice.Set`
only runs after the loop), and append the collected elements to the
initial slice contents at the end. -/
def sliceLoop (env : Env) (recur : List Node → Ty → Val → String → DRes)
    (slTy eTy : Ty) (tag : String) (init : Val) :
    List Node → Nat → List Val → DRes
  | [], _, acc => .res (.vslice (asSlice init ++ acc)) none
  | nd :: rest, i, acc =>
    match recur [nd] eTy (zeroVal eTy) tag with
    | .panic => .panic
    | .res _ (some e) =>
      .res init (some (.can .typeConversionError (some slTy) none (some (.idx i)) (some e)))
    | .res v none => sliceLoop env recur slTy eTy tag init rest (i + 1) (acc ++ [v])

/-- The element loop of `unmarshalArray`: decode node `i` into element
`i` in place; on failure the earlier elements keep their new values, the
failing element keeps its partial value, the later elements keep their
prior values, and the error is wrapped with the array and the index. -/
def arrLoop (env : Env) (recur : List Node → Ty → Val → String → DRes)
    (arrTy eTy : Ty) (tag : String) :
    List (Node × Val) → Nat → List Val → DRes
  | [], _, acc => .res (.varr acc) none
  | (nd, iv) :: rest, i, acc =>
    match recur [nd] eTy iv tag with
    | .panic => .panic
    | .res v (some e) =>
      .res (.varr (acc ++ v :: rest.map Prod.snd))
           (some (.can .typeConversionError (some arrTy) none (some (.idx i)) (some e)))
    | .res v none => arrLoop env recur arrTy eTy tag rest (i + 1) (acc ++ [v])

/-- Model of `unmarshalArray`: a matched-node count different from the declared
length is an `arrayLengthMismatch` error naming the array destination,
with the destination untouched; otherwise decode element-wise. -/
def unmarshalArray (env : Env) (recur : List Node → Ty → Val → String → DRes)
    (s : List Node) (n : Nat) (eTy : Ty) (init : Val) (tag : String) : DRes :=
  if n ≠ s.length then
    .res init (some (.can .arrayLengthMismatch (some (.tarr n eTy)) none none none))
  else
    arrLoop env recur (.tarr n eTy) eTy tag
      (s.zip (padZeros (List.replicate n eTy) (asArr init))) 0 []

/-- The loop of `childrenUntilMatch`, with fuel: while the generation is
non-empty and has no node matching the selector, descend to its
children; an empty generation returns the original selection, a matching
generation returns its matching nodes.  The fuel `totalSize s` supplied
by `childrenUntilMatch` always suffices because each generation is
strictly smaller than the previous one. -/
def cumAux (p : Node → Bool) (orig : List Node) : Nat → List Node → List Node
  | _, [] => orig
  | 0, _ :: _ => orig
  | fuel + 1, n :: rest =>
    match (n :: rest).filter p with
    | [] => cumAux p orig fuel (childrenOf (n :: rest))
    | m :: ms => m :: ms

/-- Model of `childrenUntilMatch(s, sel)`: breadth-first descent from the direct
children of `s` to the first generation containing a node matching
`sel`. -/
def childrenUntilMatch (env : Env) (sel : String) (s : List Node) : List Node :=
  cumAux (env.matchSel sel) s (totalSize s) (childrenOf s)

/-- The `EachWithBreak` loop of `unmarshalMap`: for each matched key node
as a singleton selection, decode a fresh zero key with the original tag;
on key failure wrap as `mapKeyUnmarshalError` carrying the map, the
value extracted by the popped tag's value function (whose resolution can
itself panic), and the partially decoded key, then as
`typeConversionError`.  On key success decode a fresh zero value with
the popped tag against the same singleton selection; on value failure
wrap as `typeConversionError`.  On success insert the pair and continue;
entries inserted before a failure are kept. -/
def mapLoop (env : Env) (recur : List Node → Ty → Val → String → DRes)
    (mpTy kTy vTy : Ty) (tag valTag : String) :
    List Node → List (Val × Val) → DRes
  | [], acc => .res (.vmap acc) none
  | k :: ks, acc =>
    match recur [k] kTy (zeroVal kTy) tag with
    | .panic => .panic
    | .res kv (some e) =>
      match valFunc valTag with
      | none => .panic
      | some vf =>
        .res (.vmap acc)
          (some (.can .typeConversionError (some mpTy) none none (some
            (.can .mapKeyUnmarshalError (some mpTy) (some (applyVF vf [k]))
              (some (.key kv)) (some e)))))
    | .res kv none =>
      match recur [k] vTy (zeroVal vTy) valTag with
      | .panic => .panic
      | .res _ (some e) =>
        .res (.vmap acc) (some (.can .typeConversionError (some mpTy) none none (some e)))
      | .res vv none =>
        mapLoop env recur mpTy kTy vTy tag valTag ks (setMapIndex acc kv vv)

/-- Model of `unmarshalMap`: materialize a nil map, require a non-empty selector
slot 1 (else `missingValueSelector` naming the map), find the key
generation with `childrenUntilMatch`, pop the tag for value decoding,
and run the pair loop. -/
def unmarshalMap (env : Env) (recur : List Node → Ty → Val → String → DRes)
    (s : List Node) (kTy vTy : Ty) (init : Val) (tag : String) : DRes :=
  match selector tag 1 with
  | none => .panic
  | some sel1 =>
    if sel1 == "" then
      .res (.vmap (asMap init))
        (some (.can .missingValueSelector (some (.tmap kTy vTy)) none none none))
    else
      mapLoop env recur (.tmap kTy vTy) kTy vTy tag (popVal tag)
        (childrenUntilMatch env sel1 s) (asMap init)

/-- Model of `unmarshalByType`: resolve indirection and the custom-decoder
capability first (`indirect`), then the `[]*html.Node` capture special
case, then dispatch on the destination's kind to the struct, slice,
array or map handler, and in the default case resolve the tag's value
function (a panic for the pathological tags `valFunc` panics on),
extract the string and convert it.  The fuel bounds the recursion
depth; every recursive call through a container handler uses one unit
less. -/
def unmarshalByType (env : Env) : Nat → List Node → Ty → Val → String → DRes
  | 0, _, _, _, _ => .panic
  | fuel + 1, s, t, init, tag =>
    match findCustom t with
    | some f => applyCustom f s init
    | none =>
      match stripPtr t with
      | .tnodes => .res (.vnodes (asNodes init ++ s)) none
      | .tstruct fields =>
        structLoop env (unmarshalByType env fuel) (.tstruct fields) s
          (fields.zip (padZeros (fields.map fun f => f.2.2) (asStructVals init))) []
      | .tslice eTy => sliceLoop env (unmarshalByType env fuel) (.tslice eTy) eTy tag init s 0 []
      | .tarr n eTy => unmarshalArray env (unmarshalByType env fuel) s n eTy init tag
      | .tmap kTy vTy => unmarshalMap env (unmarshalByType env fuel) s kTy vTy init tag
      | t2 =>
        match valFunc tag with
        | none => .panic
        | some vf => unmarshalLiteral env (applyVF vf s) t2 init

/-- Model of `UnmarshalSelection`: a non-pointer destination is a `nonPointer`
error, a nil pointer is a `nilValue` error, then `indirect` either finds
a custom decoder at some indirection depth or the decode proper starts
with the empty tag. -/
def unmarshalSelection (env : Env) (fuel : Nat) (s : List Node)
    (t : Ty) (isNil : Bool) (init : Val) : DRes :=
  match t with
  | .tptr inner =>
    if isNil then .res init (some (.can .nilValue (some (.tptr inner)) none none none))
    else
      match findCustom (.tptr inner) with
      | some f => applyCustom f s init
      | none => unmarshalByType env fuel s inner init ""
  | t2 => .res init (some (.can .nonPointer (some t2) none none none))

/-- Iterated children: `genFrom t 0 = t`, and each next step descends to
the children. -/
def genFrom (t : List Node) : Nat → List Node
  | 0 => t
  | k + 1 => childrenOf (genFrom t k)

/-- The generations of `childrenUntilMatch`'s descent: generation 0 is
the direct children of the selection, generation `k+1` the children of
generation `k`. -/
def generation (s : List Node) (k : Nat) : List Node := genFrom (childrenOf s) k

/-! ## Concrete fixtures used by witnesses and counterexamples -/

/-- A childless node. -/
def leafNode (name text : String) : Node := .mk name [] text .nil

/-- A concrete environment: selectors match element names, no directive
method resolves, and the parsers accept a small table of literals
(mirroring that `strconv` fails on non-numeric text such as "x" or
"zz"). -/
def nameEnv : Env where
  matchSel := fun sel n => nodeName n == sel
  dirs := fun _ => none
  parseBool := fun s =>
    if s == "true" then .ok true
    else if s == "false" then .ok false
    else .error "invalid syntax"
  parseInt := fun s =>
    if s == "1" then .ok 1 else if s == "2" then .ok 2 else .error "invalid syntax"
  parseUint := fun s =>
    if s == "1" then .ok 1 else .error "invalid syntax"

/-- The key node of the sibling scenario: matches selector "k", carries
text "K". -/
def keyNode : Node := leafNode "k" "K"

/-- The sibling of the key node: matches the value selector "v" and
carries arbitrary content `c`. -/
def sibNode (c : String) : Node := leafNode "v" c

/-- A root whose children are the key node and its value-selector-matching
sibling: the only "v" node in the tree is a sibling, not a descendant,
of the key node. -/
def rootNode (c : String) : Node :=
  .mk "root" [] "" (.cons keyNode (.cons (sibNode c) .nil))

/-- An intermediate node so that the key generation is generation 1. -/
def midNode : Node := .mk "mid" [] "" (.cons keyNode .nil)

/-- A root whose key node sits two generations down. -/
def deepRoot : Node := .mk "root" [] "" (.cons midNode .nil)

/-- A concrete custom decoder used by witnesses. -/
def customF : List Node → Except String Val := fun _ => .ok (.vstr "custom")

/-- A key node whose text parses as the integer 1. -/
def k1Node : Node := leafNode "k" "1"

/-- A key node whose text "zz" fails integer conversion. -/
def k2Node : Node := leafNode "k" "zz"

/-! ## Facts about the comma split and join -/

theorem splitAux_ne_nil (sep : Char) (cs acc : List Char) : splitAux sep cs acc ≠ [] := by
  induction cs generalizing acc with
  | nil => simp [splitAux]
  | cons c cs ih =>
    rw [splitAux]
    by_cases h : c = sep
    · simp [h]
    · simpa [h] using ih _

theorem goSplit_ne_nil (s : String) : goSplit s ≠ [] := splitAux_ne_nil _ _ _

theorem mem_splitAux_no_sep (sep : Char) (cs : List Char) :
    ∀ acc : List Char, sep ∉ acc → ∀ tok ∈ splitAux sep cs acc, sep ∉ tok.data := by
  induction cs with
  | nil =>
    intro acc hacc tok htok
    simp [splitAux] at htok
    subst htok
    intro hm
    exact hacc (by simpa using hm)
  | cons c cs ih =>
    intro acc hacc tok htok
    by_cases h : c = sep
    · simp [splitAux, h] at htok
      rcases htok with rfl | htok
      · intro hm
        exact hacc (by simpa using hm)
      · exact ih [] (by simp) tok htok
    · refine ih (c :: acc) ?_ tok (by simpa [splitAux, h] using htok)
      intro hm
      rcases List.mem_cons.mp hm with rfl | hm
      · exact h rfl
      · exact hacc hm

theorem mem_goSplit_no_comma (s : String) : ∀ tok ∈ goSplit s, ',' ∉ tok.data :=
  mem_splitAux_no_sep ',' s.data [] (by simp)

theorem splitAux_of_no_sep (sep : Char) (cs : List Char) :
    ∀ acc : List Char, sep ∉ cs → splitAux sep cs acc = [String.mk (acc.reverse ++ cs)] := by
  induction cs with
  | nil => intro acc _; simp [splitAux]
  | cons c cs ih =>
    intro acc h
    have hc : ¬ c = sep := fun e => h (by simp [e])
    rw [splitAux, if_neg hc, ih (c :: acc) (fun hm => h (List.mem_cons_of_mem _ hm))]
    have : (c :: acc).reverse ++ cs = acc.reverse ++ c :: cs := by simp
    rw [this]

theorem splitAux_append_sep (sep : Char) (pre : List Char) (cs : List Char) :
    ∀ acc : List Char, sep ∉ pre →
      splitAux sep (pre ++ sep :: cs) acc
        = String.mk (acc.reverse ++ pre) :: splitAux sep cs [] := by
  induction pre with
  | nil => intro acc _; simp [splitAux]
  | cons c p ih =>
    intro acc h
    have hc : ¬ c = sep := fun e => h (by simp [e])
    rw [List.cons_append, splitAux, if_neg hc,
        ih (c :: acc) (fun hm => h (List.mem_cons_of_mem _ hm))]
    have : (c :: acc).reverse ++ p = acc.reverse ++ c :: p := by simp
    rw [this]

theorem data_goJoin_cons (a b : String) (l : List String) :
    (goJoin (a :: b :: l)).data = a.data ++ ',' :: (goJoin (b :: l)).data := by
  show (a ++ "," ++ goJoin (b :: l)).data = _
  rw [String.data_append, String.data_append]
  have hcomma : (",").data = [','] := rfl
  rw [hcomma, List.append_assoc]
  rfl

theorem goSplit_goJoin (l : List String) (hne : l ≠ []) (h : ∀ tok ∈ l, ',' ∉ tok.data) :
    goSplit (goJoin l) = l := by
  induction l with
  | nil => exact absurd rfl hne
  | cons a l ih =>
    cases l with
    | nil =>
      show goSplit a = [a]
      rw [goSplit, splitAux_of_no_sep ',' a.data [] (h a (by simp))]
      rfl
    | cons b l2 =>
      rw [goSplit, data_goJoin_cons a b l2,
          splitAux_append_sep ',' a.data _ [] (h a (by simp))]
      have hr : splitAux ',' (goJoin (b :: l2)).data [] = goSplit (goJoin (b :: l2)) := rfl
      rw [hr, ih (by simp) (fun tok htok => h tok (List.mem_cons_of_mem _ htok))]
      rfl

theorem goSplit_popVal (tag : String) (a b : String) (rest : List String)
    (h : goSplit tag = a :: b :: rest) : goSplit (popVal tag) = a :: rest := by
  have hpop : popVal tag = goJoin (a :: rest) := by
    rw [popVal, h]
  rw [hpop]
  apply goSplit_goJoin _ (by simp)
  intro tok htok
  apply mem_goSplit_no_comma tag tok
  rw [h]
  rcases List.mem_cons.mp htok with rfl | htok
  · simp
  · simp [htok]

theorem skipDirs_cons_empty (a : String) (l : List String) (h : a.data = []) :
    skipDirs (a :: l) = none := by simp [skipDirs, h]

theorem skipDirs_cons_nonbang (a : String) (l : List String) (c : Char) (cs : List Char)
    (h : a.data = c :: cs) (hc : ¬ c = prePfx) : skipDirs (a :: l) = some 0 := by
  simp [skipDirs, h, hc]

/-- Claim C1 (amended): on an annotation with no leading preprocessing
directive (its first comma token does not begin with the directive
marker), `popVal` removes exactly selector slot 1: slot 0 is unchanged
and every slot `i ≥ 1` of the popped annotation is slot `i+1` of the
original. -/
theorem popVal_slots_no_directive (tag : String) (h : startsBang (headTok tag) = false) :
    selector (popVal tag) 0 = selector tag 0 ∧
    ∀ i, 1 ≤ i → selector (popVal tag) i = selector tag (i + 1) := by
  rcases hsp : goSplit tag with _ | ⟨a, _ | ⟨b, rest⟩⟩
  · exact absurd hsp (goSplit_ne_nil tag)
  · have hpop : popVal tag = tag := by rw [popVal, hsp]
    refine ⟨by rw [hpop], fun i hi => ?_⟩
    rw [hpop]
    simp only [selector, hsp]
    rw [if_pos (by simp only [List.length_cons, List.length_nil]; omega), if_pos (by simp only [List.length_cons, List.length_nil]; omega)]
  · have ha : headTok tag = a := by rw [headTok, hsp]
    rw [ha] at h
    have hpop : goSplit (popVal tag) = a :: rest := goSplit_popVal tag a b rest hsp
    rcases hd : a.data with _ | ⟨c, cs⟩
    · -- empty first token: the offset scan panics on both sides
      have h1 : skipDirs (a :: rest) = none := skipDirs_cons_empty _ _ hd
      have h2 : skipDirs (a :: b :: rest) = none := skipDirs_cons_empty _ _ hd
      constructor
      · simp only [selector, hsp, hpop, h1, h2]
        rw [if_neg (by simp), if_neg (by simp)]
      · intro i hi
        simp only [selector, hsp, hpop, h1, h2]
        by_cases hb : i > rest.length
        · rw [if_pos (by simp only [List.length_cons, List.length_nil]; omega), if_pos (by simp only [List.length_cons, List.length_nil]; omega)]
        · rw [if_neg (by simp only [List.length_cons, List.length_nil]; omega), if_neg (by simp only [List.length_cons, List.length_nil]; omega)]
    · have hc : ¬ c = prePfx := by
        rw [startsBang, hd] at h
        simpa using h
      have h1 : skipDirs (a :: rest) = some 0 := skipDirs_cons_nonbang _ _ _ _ hd hc
      have h2 : skipDirs (a :: b :: rest) = some 0 := skipDirs_cons_nonbang _ _ _ _ hd hc
      constructor
      · simp only [selector, hsp, hpop, h1, h2]
        rw [if_neg (by simp), if_neg (by simp)]
        rfl
      · intro i hi
        obtain ⟨j, rfl⟩ : ∃ j, i = j + 1 := ⟨i - 1, by omega⟩
        simp only [selector, hsp, hpop, h1, h2]
        by_cases hb : j + 1 > rest.length
        · rw [if_pos (by simp only [List.length_cons, List.length_nil]; omega), if_pos (by simp only [List.length_cons, List.length_nil]; omega)]
        · rw [if_neg (by simp only [List.length_cons, List.length_nil]; omega), if_neg (by simp only [List.length_cons, List.length_nil]; omega)]

          simp [List.get?_cons_succ]

/-- Claim C1 counterexample: on the annotation "!First,a,b", whose one
leading token is a preprocessing directive, selector slot 1 is "b", yet
popping changes slot 0 from "a" to "b" — the popped token is the primary
selector, not the value-extraction selector, because `popVal` drops the
raw second comma token without skipping directives. -/
theorem popVal_directive_cex :
    selector "!First,a,b" 0 = some "a" ∧
    selector "!First,a,b" 1 = some "b" ∧
    selector (popVal "!First,a,b") 0 = some "b" ∧
    selector (popVal "!First,a,b") 0 ≠ selector "!First,a,b" 0 := by
  refine ⟨rfl, rfl, rfl, ?_⟩
  decide

/-- Witness for `popVal_slots_no_directive` at the directive-free
annotation "t0,t1,t2". -/
theorem popVal_slots_no_directive_w :
    selector (popVal "t0,t1,t2") 1 = selector "t0,t1,t2" 2 :=
  (popVal_slots_no_directive "t0,t1,t2" (by decide)).2 1 (by decide)

/-- Resolution lemma: `valFunc` on an annotation with at least two comma tokens resolves
the raw second token. -/
theorem valFunc_eq_resolveTok (tag t0 src : String) (rest : List String)
    (h : goSplit tag = t0 :: src :: rest) : valFunc tag = resolveTok src := by
  unfold valFunc
  rw [h]

/-- Resolution lemma: `resolveTok` on a properly bracket-delimited token extracts the
enclosed name. -/
theorem resolveTok_bracket (name : String) :
    resolveTok ("[" ++ name ++ "]") = some (.attr name) := by
  have hdata : ("[" ++ name ++ "]").data = '[' :: (name.data ++ [']']) := by
    rw [String.data_append, String.data_append]
    rfl
  rcases hm : name.data ++ [']'] with _ | ⟨x, xs⟩
  · exact absurd hm (by simp)
  · have hdrop : (x :: xs).dropLast = name.data := by
      rw [← hm]
      simp
    unfold resolveTok
    rw [hdata, hm]
    simp only [if_pos rfl, hdrop]
    rfl

/-- Resolution lemma: `resolveTok` on a non-empty token that does not start with a bracket
and is not "html" falls back to text extraction. -/
theorem resolveTok_fallback (src : String) (hne : src ≠ "")
    (hbr : src.data.head? ≠ some '[') (hh : src ≠ "html") :
    resolveTok src = some .text := by
  rcases hm : src.data with _ | ⟨c, cs⟩
  · exact absurd (String.ext hm) hne
  · have hcne : ¬ c = '[' := by
      rw [hm] at hbr
      simpa using hbr
    unfold resolveTok
    rw [hm]
    simp only [if_neg hcne, if_neg hh]
    by_cases ht : src = "text"
    · simp [ht]
    · simp [ht]

/-- Claim C2 (amended): `valFunc` inspects the raw second comma token of
the annotation (which coincides with selector slot 1 exactly when the
annotation has no leading directives): with fewer than two tokens it
resolves to text extraction; a second token that is bracket-delimited
resolves to attribute extraction on the enclosed name; the literal
"html" resolves to markup extraction; any other non-empty token not
beginning with the bracket (including "text" and unrecognized tokens)
resolves to text extraction. -/
theorem valFunc_second_token (tag : String) :
    (∀ t0, goSplit tag = [t0] → valFunc tag = some .text) ∧
    (∀ t0 name rest, goSplit tag = t0 :: ("[" ++ name ++ "]") :: rest →
        valFunc tag = some (.attr name)) ∧
    (∀ t0 rest, goSplit tag = t0 :: "html" :: rest → valFunc tag = some .html) ∧
    (∀ t0 src rest, goSplit tag = t0 :: src :: rest → src ≠ "" →
        src.data.head? ≠ some '[' → src ≠ "html" → valFunc tag = some .text) := by
  refine ⟨fun t0 h => by rw [valFunc, h], ?_, ?_, ?_⟩
  · intro t0 name rest h
    rw [valFunc_eq_resolveTok tag t0 _ rest h]
    exact resolveTok_bracket name
  · intro t0 rest h
    rw [valFunc_eq_resolveTok tag t0 _ rest h]
    rfl
  · intro t0 src rest h hne hbr hh
    rw [valFunc_eq_resolveTok tag t0 _ rest h]
    exact resolveTok_fallback src hne hbr hh

/-- Witness for `valFunc_second_token` at the annotation "a,[href]". -/
theorem valFunc_second_token_w : valFunc "a,[href]" = some (.attr "href") :=
  (valFunc_second_token "a,[href]").2.1 "a" "href" [] (by decide)

/-- Claim C2 counterexample: on "!First,a,[href]" selector slot 1 (after
skipping the directive) is the bracket-delimited "[href]", yet `valFunc`
resolves to text extraction, not attribute extraction, because it reads
the raw second comma token "a". -/
theorem valFunc_slot1_cex :
    selector "!First,a,[href]" 1 = some "[href]" ∧
    valFunc "!First,a,[href]" = some VF.text ∧
    valFunc "!First,a,[href]" ≠ some (VF.attr "href") := by
  refine ⟨rfl, rfl, ?_⟩
  decide

theorem totalSize_append (s t : List Node) :
    totalSize (s ++ t) = totalSize s + totalSize t := by
  induction s with
  | nil => simp [totalSize]
  | cons n rest ih =>
    show nodeSize n + totalSize (rest ++ t) = nodeSize n + totalSize rest + totalSize t
    rw [ih]
    omega

theorem forestSize_toList : ∀ f : Forest, totalSize f.toList = forestSize f
  | .nil => rfl
  | .cons h t => by
    show nodeSize h + totalSize (Forest.toList t) = nodeSize h + forestSize t
    rw [forestSize_toList t]

theorem nodeSize_pos (n : Node) : 0 < nodeSize n := by
  cases n
  show 0 < 1 + _
  omega

theorem totalSize_children_add (s : List Node) :
    totalSize (childrenOf s) + s.length = totalSize s := by
  induction s with
  | nil => rfl
  | cons n rest ih =>
    have hc : childrenOf (n :: rest) = kidsOf n ++ childrenOf rest := by
      simp [childrenOf]
    rw [hc, totalSize_append]
    have h1 : totalSize (kidsOf n) = forestSize (nodeKids n) := forestSize_toList _
    have h2 : nodeSize n = 1 + forestSize (nodeKids n) := by cases n; rfl
    show totalSize (kidsOf n) + totalSize (childrenOf rest) + (rest.length + 1)
        = nodeSize n + totalSize rest
    omega

theorem totalSize_children_le (s : List Node) :
    totalSize (childrenOf s) ≤ totalSize s := by
  have := totalSize_children_add s
  omega

theorem totalSize_children_lt (s : List Node) (h : s ≠ []) :
    totalSize (childrenOf s) < totalSize s := by
  have h1 := totalSize_children_add s
  have h2 : 0 < s.length := List.length_pos.mpr h
  omega

theorem genFrom_shift (t : List Node) (k : Nat) :
    genFrom t (k + 1) = genFrom (childrenOf t) k := by
  induction k with
  | zero => rfl
  | succ k ih =>
    show childrenOf (genFrom t (k + 1)) = childrenOf (genFrom (childrenOf t) k)
    rw [ih]

theorem genFrom_nil (k : Nat) : genFrom [] k = [] := by
  induction k with
  | zero => rfl
  | succ k ih =>
    show childrenOf (genFrom [] k) = []
    rw [ih]
    rfl

theorem cumAux_exhausted (p : Node → Bool) (orig : List Node) :
    ∀ fuel t, totalSize t ≤ fuel → (∀ k, (genFrom t k).filter p = []) →
      cumAux p orig fuel t = orig := by
  intro fuel
  induction fuel with
  | zero =>
    intro t _ _
    cases t with
    | nil => rfl
    | cons n rest => rfl
  | succ fuel ih =>
    intro t hsz hk
    cases t with
    | nil => rfl
    | cons n rest =>
      have h0 : (n :: rest).filter p = [] := hk 0
      show (match (n :: rest).filter p with
            | [] => cumAux p orig fuel (childrenOf (n :: rest))
            | m :: ms => m :: ms) = orig
      rw [h0]
      exact ih (childrenOf (n :: rest))
        (by have := totalSize_children_lt (n :: rest) (by simp); omega)
        (fun k => by have := hk (k + 1); rwa [genFrom_shift] at this)

theorem cumAux_first_match (p : Node → Bool) (orig : List Node) :
    ∀ k fuel t, totalSize t ≤ fuel →
      (∀ j, j < k → (genFrom t j).filter p = []) →
      (genFrom t k).filter p ≠ [] →
      cumAux p orig fuel t = (genFrom t k).filter p := by
  intro k
  induction k with
  | zero =>
    intro fuel t hsz h0 hne
    cases t with
    | nil => exact absurd rfl hne
    | cons n rest =>
      cases fuel with
      | zero =>
        have := nodeSize_pos n
        have : totalSize (n :: rest) > 0 := by
          show 0 < nodeSize n + totalSize rest
          omega
        omega
      | succ fuel =>
        show (match (n :: rest).filter p with
              | [] => cumAux p orig fuel (childrenOf (n :: rest))
              | m :: ms => m :: ms) = (n :: rest).filter p
        rcases hf : (n :: rest).filter p with _ | ⟨m, ms⟩
        · exact absurd hf hne
        · rfl
  | succ k ih =>
    intro fuel t hsz hj hne
    have h0 : t.filter p = [] := hj 0 (Nat.succ_pos k)
    cases t with
    | nil =>
      rw [genFrom_nil] at hne
      exact absurd rfl hne
    | cons n rest =>
      cases fuel with
      | zero =>
        have := nodeSize_pos n
        have : totalSize (n :: rest) > 0 := by
          show 0 < nodeSize n + totalSize rest
          omega
        omega
      | succ fuel =>
        show (match (n :: rest).filter p with
              | [] => cumAux p orig fuel (childrenOf (n :: rest))
              | m :: ms => m :: ms) = (genFrom (n :: rest) (k + 1)).filter p
        rw [h0, genFrom_shift]
        exact ih fuel (childrenOf (n :: rest))
          (by have := totalSize_children_lt (n :: rest) (by simp); omega)
          (fun j hjk => by have := hj (j + 1) (by omega); rwa [genFrom_shift] at this)
          (by rwa [genFrom_shift] at hne)

/-- Claim C3: `childrenUntilMatch` descends generation by generation
from the children of the selection; if no generation ever matches the
key selector before the tree is exhausted it returns the original
selection unchanged, and otherwise it returns exactly the matching nodes
of the first generation containing a match. -/
theorem childrenUntilMatch_key_generation (env : Env) (sel : String) (s : List Node) :
    ((∀ k, (generation s k).filter (env.matchSel sel) = []) →
        childrenUntilMatch env sel s = s) ∧
    (∀ k, (∀ j, j < k → (generation s j).filter (env.matchSel sel) = []) →
        (generation s k).filter (env.matchSel sel) ≠ [] →
        childrenUntilMatch env sel s = (generation s k).filter (env.matchSel sel)) := by
  constructor
  · intro hk
    exact cumAux_exhausted _ _ (totalSize s) (childrenOf s) (totalSize_children_le s)
      (fun k => hk k)
  · intro k hj hne
    exact cumAux_first_match _ _ k (totalSize s) (childrenOf s) (totalSize_children_le s) hj hne

/-- Witness for `childrenUntilMatch_key_generation`: in a root / mid /
key chain, generation 0 has no "k" node, generation 1 is the key node. -/
theorem childrenUntilMatch_key_generation_w :
    childrenUntilMatch nameEnv "k" [deepRoot] = [keyNode] := by
  have h := (childrenUntilMatch_key_generation nameEnv "k" [deepRoot]).2 1
    (fun j hj => by
      have : j = 0 := by omega
      subst this
      rfl)
    (List.cons_ne_nil _ _)
  exact h

/-- Claim C4: in a mapping decode of the sibling scenario — the key
selector "k" matches only `keyNode`, and the only node matching the
value selector "v" is a sibling, not a descendant, of the key node —
the decoded value for the key is built from the key node's own singleton
selection, so the struct field selected by "v" comes out empty for every
sibling content `c`: the sibling's content is never read. -/
theorem map_value_scoped_to_key_subtree (fuel : Nat) (c : String) :
    unmarshalByType nameEnv (fuel + 3) [rootNode c]
        (.tmap .tstr (.tstruct [("F", "v", .tstr)])) (.vmap []) "x,k,v"
      = .res (.vmap [(.vstr "K", .vstruct [("F", .vstr "")])]) none := rfl

/-- Claim C5: whenever the destination type exposes the `UnmarshalHTML`
capability at any pointer-indirection depth, `unmarshalByType` returns
exactly the custom decoder's outcome (its failure wrapped as
`customUnmarshalError`) for every annotation — including well-formed
scalar annotations, so no built-in path ever runs — and the entry point
`UnmarshalSelection` does the same for a non-nil pointer destination. -/
theorem custom_decoder_precedence (env : Env) (fuel : Nat) (s : List Node) (t : Ty)
    (init : Val) (tag : String) (f : List Node → Except String Val)
    (h : findCustom t = some f) :
    unmarshalByType env (fuel + 1) s t init tag = applyCustom f s init ∧
    unmarshalSelection env fuel s (.tptr t) false init = applyCustom f s init := by
  constructor
  · show (match findCustom t with
          | some f => applyCustom f s init
          | none => _) = applyCustom f s init
    rw [h]
  · show (match findCustom (.tptr t) with
          | some f => applyCustom f s init
          | none => unmarshalByType env fuel s t init "") = applyCustom f s init
    have hp : findCustom (.tptr t) = some f := h
    rw [hp]

/-- Witness for `custom_decoder_precedence`: a doubly-indirected custom
type under a scalar annotation decodes to the custom routine's value. -/
theorem custom_decoder_precedence_w :
    unmarshalByType nameEnv 1 [] (.tptr (.tptr (.tcustom customF))) (.vstr "") "h1,text"
      = .res (.vstr "custom") none := by
  have h := (custom_decoder_precedence nameEnv 0 [] (.tptr (.tptr (.tcustom customF)))
    (.vstr "") "h1,text" customF rfl).1
  exact h

/-- Claim C10: a struct field tagged exactly "!ignore" is always
skipped: the field loop keeps whatever value the field already held,
reports nothing for it, and moves on — before the custom-decoder
capability check, so even a field whose type implements `UnmarshalHTML`
is skipped. -/
theorem ignore_tag_skips_field :
    (∀ env recur stTy s name fty iv rest acc,
        structLoop env recur stTy s ((⟨name, ignoreTag, fty⟩, iv) :: rest) acc
          = structLoop env recur stTy s rest (acc ++ [(name, iv)])) ∧
    (∀ env fuel s name f iv tag,
        unmarshalByType env (fuel + 1) s
            (.tstruct [(name, ignoreTag, .tcustom f)]) (.vstruct [(name, iv)]) tag
          = .res (.vstruct [(name, iv)]) none) := by
  constructor
  · intro env recur stTy s name fty iv rest acc
    show (if (ignoreTag == ignoreTag) = true then
            structLoop env recur stTy s rest (acc ++ [(name, iv)])
          else _) = structLoop env recur stTy s rest (acc ++ [(name, iv)])
    rw [if_pos (by rfl)]
  · intro env fuel s name f iv tag
    rfl

theorem padZeros_length (tys : List Ty) (vs : List Val) :
    (padZeros tys vs).length = tys.length := by
  simp [padZeros]
  omega

theorem arrLoop_shape (env : Env) (recur : List Node → Ty → Val → String → DRes)
    (arrTy eTy : Ty) (tag : String) :
    ∀ zs i acc v o, arrLoop env recur arrTy eTy tag zs i acc = .res v o →
      (∃ xs, v = .varr xs ∧ xs.length = acc.length + zs.length) ∧
      (o = none ∨ ∃ j e,
        o = some (.can .typeConversionError (some arrTy) none (some (.idx j)) (some e))) := by
  intro zs
  induction zs with
  | nil =>
    intro i acc v o h
    have h2 : DRes.res (.varr acc) none = DRes.res v o := h
    injection h2 with hv ho
    subst hv
    subst ho
    exact ⟨⟨acc, rfl, by simp⟩, Or.inl rfl⟩
  | cons z rest ih =>
    intro i acc v o h
    obtain ⟨nd, iv⟩ := z
    rcases hr : recur [nd] eTy iv tag with _ | ⟨w, oe⟩
    · rw [arrLoop, hr] at h
      exact DRes.noConfusion h
    · cases oe with
      | some e =>
        rw [arrLoop, hr] at h
        injection h with hv ho
        subst hv
        subst ho
        refine ⟨⟨_, rfl, ?_⟩, Or.inr ⟨i, e, rfl⟩⟩
        simp only [List.length_append, List.length_cons, List.length_map]
      | none =>
        rw [arrLoop, hr] at h
        obtain ⟨⟨xs, hv, hlen⟩, ho⟩ := ih (i + 1) (acc ++ [w]) v o h
        refine ⟨⟨xs, hv, ?_⟩, ho⟩
        simp at hlen
        simp
        omega

/-- Claim C6 (amended): an array decode reports `arrayLengthMismatch`
naming the array destination, with the destination untouched, exactly
when the matched-node count differs from the declared length; with the
exact count the length check passes (the mismatch error cannot occur)
and any outcome value is an array of exactly the declared length — no
truncation or padding — though an element conversion may still fail
with an index-wrapped error. -/
theorem unmarshalArray_exact_count (env : Env)
    (recur : List Node → Ty → Val → String → DRes)
    (s : List Node) (n : Nat) (eTy : Ty) (init : Val) (tag : String) :
    (s.length ≠ n → unmarshalArray env recur s n eTy init tag
        = .res init (some (.can .arrayLengthMismatch (some (.tarr n eTy)) none none none))) ∧
    (s.length = n → ∀ v o, unmarshalArray env recur s n eTy init tag = .res v o →
        (∃ xs, v = .varr xs ∧ xs.length = n) ∧
        o ≠ some (.can .arrayLengthMismatch (some (.tarr n eTy)) none none none)) := by
  constructor
  · intro h
    unfold unmarshalArray
    rw [if_pos (by omega)]
  · intro h v o hres
    unfold unmarshalArray at hres
    rw [if_neg (by omega)] at hres
    have hz : (s.zip (padZeros (List.replicate n eTy) (asArr init))).length = n := by
      rw [List.length_zip, padZeros_length]
      simp [h]
    obtain ⟨⟨xs, hv, hlen⟩, ho⟩ :=
      arrLoop_shape env recur (.tarr n eTy) eTy tag _ 0 [] v o hres
    refine ⟨⟨xs, hv, by simp [hz] at hlen; exact hlen⟩, ?_⟩
    rcases ho with rfl | ⟨j, e, rfl⟩
    · simp
    · intro hcontra
      injection hcontra with hcan
      injection hcan with h1 h2 h3 h4 h5
      exact Reason.noConfusion h1

/-- Witness for `unmarshalArray_exact_count`: zero matched nodes against
declared length one yield the length-mismatch error. -/
theorem unmarshalArray_exact_count_w :
    unmarshalArray nameEnv (unmarshalByType nameEnv 1) [] 1 .tstr (.varr []) "t"
      = .res (.varr [])
          (some (.can .arrayLengthMismatch (some (.tarr 1 .tstr)) none none none)) :=
  (unmarshalArray_exact_count nameEnv (unmarshalByType nameEnv 1) [] 1 .tstr
    (.varr []) "t").1 (by decide)

/-- Claim C6 counterexample: with exactly N matched nodes (N = 1) the
decode still fails when the element conversion fails, so "decode
succeeds iff the narrowed selection has exactly N matched nodes" does
not hold in the forward direction. -/
theorem array_element_failure_cex :
    ([leafNode "a" "x"] : List Node).length = 1 ∧
    unmarshalArray nameEnv (unmarshalByType nameEnv 1) [leafNode "a" "x"] 1 .tint
        (.varr [.vint 0]) "t"
      = .res (.varr [.vint 0])
          (some (.can .typeConversionError (some (.tarr 1 .tint)) none (some (.idx 0))
            (some (.can .typeConversionError (some .tint) (some "x") none
              (some (.leaf "invalid syntax")))))) :=
  ⟨rfl, rfl⟩

/-- Claim C7 (amended): for the scalar kinds `unmarshalLiteral` handles
(bool, int, uint, string — float is analogous), the decoder extracts a
string with the resolved value function and converts it, and a failed
conversion is reported as a `typeConversionError` carrying the offending
extracted string and the destination, with the `strconv` error as cause;
but a scalar kind with no case in `unmarshalLiteral`'s switch (such as
complex) is silently left at its prior value with no error. -/
theorem scalar_conversion_reported (env : Env) (fuel : Nat) (s : List Node) (tag : String)
    (init : Val) (vf : VF) (h : valFunc tag = some vf) :
    (∀ m, env.parseInt (applyVF vf s) = .error m →
        unmarshalByType env (fuel + 1) s .tint init tag
          = .res init (some (.can .typeConversionError (some .tint)
              (some (applyVF vf s)) none (some (.leaf m))))) ∧
    (∀ n, env.parseInt (applyVF vf s) = .ok n →
        unmarshalByType env (fuel + 1) s .tint init tag = .res (.vint n) none) ∧
    (∀ m, env.parseBool (applyVF vf s) = .error m →
        unmarshalByType env (fuel + 1) s .tbool init tag
          = .res init (some (.can .typeConversionError (some .tbool)
              (some (applyVF vf s)) none (some (.leaf m))))) ∧
    (∀ m, env.parseUint (applyVF vf s) = .error m →
        unmarshalByType env (fuel + 1) s .tuint init tag
          = .res init (some (.can .typeConversionError (some .tuint)
              (some (applyVF vf s)) none (some (.leaf m))))) ∧
    (unmarshalByType env (fuel + 1) s .tstr init tag = .res (.vstr (applyVF vf s)) none) ∧
    (unmarshalByType env (fuel + 1) s .tcomplex init tag = .res init none) := by
  refine ⟨fun m hm => ?_, fun n hn => ?_, fun m hm => ?_, fun m hm => ?_, ?_, ?_⟩
  · show (match valFunc tag with
          | none => DRes.panic
          | some vf2 => unmarshalLiteral env (applyVF vf2 s) .tint init) = _
    rw [h]
    show (match env.parseInt (applyVF vf s) with
          | .ok n => DRes.res (.vint n) none
          | .error m2 => DRes.res init (some (.can .typeConversionError (some .tint)
              (some (applyVF vf s)) none (some (.leaf m2))))) = _
    rw [hm]
  · show (match valFunc tag with
          | none => DRes.panic
          | some vf2 => unmarshalLiteral env (applyVF vf2 s) .tint init) = _
    rw [h]
    show (match env.parseInt (applyVF vf s) with
          | .ok n => DRes.res (.vint n) none
          | .error m2 => DRes.res init (some (.can .typeConversionError (some .tint)
              (some (applyVF vf s)) none (some (.leaf m2))))) = _
    rw [hn]
  · show (match valFunc tag with
          | none => DRes.panic
          | some vf2 => unmarshalLiteral env (applyVF vf2 s) .tbool init) = _
    rw [h]
    show (match env.parseBool (applyVF vf s) with
          | .ok b => DRes.res (.vbool b) none
          | .error m2 => DRes.res init (some (.can .typeConversionError (some .tbool)
              (some (applyVF vf s)) none (some (.leaf m2))))) = _
    rw [hm]
  · show (match valFunc tag with
          | none => DRes.panic
          | some vf2 => unmarshalLiteral env (applyVF vf2 s) .tuint init) = _
    rw [h]
    show (match env.parseUint (applyVF vf s) with
          | .ok n => DRes.res (.vuint n) none
          | .error m2 => DRes.res init (some (.can .typeConversionError (some .tuint)
              (some (applyVF vf s)) none (some (.leaf m2))))) = _
    rw [hm]
  · show (match valFunc tag with
          | none => DRes.panic
          | some vf2 => unmarshalLiteral env (applyVF vf2 s) .tstr init) = _
    rw [h]
    rfl
  · show (match valFunc tag with
          | none => DRes.panic
          | some vf2 => unmarshalLiteral env (applyVF vf2 s) .tcomplex init) = _
    rw [h]
    rfl

/-- Witness for `scalar_conversion_reported`: the non-numeric text "x"
fails integer conversion and is reported with the offending string. -/
theorem scalar_conversion_reported_w :
    unmarshalByType nameEnv 1 [leafNode "a" "x"] .tint (.vint 0) "t"
      = .res (.vint 0) (some (.can .typeConversionError (some .tint) (some "x") none
          (some (.leaf "invalid syntax")))) := by
  have h := (scalar_conversion_reported nameEnv 0 [leafNode "a" "x"] "t" (.vint 0)
    .text rfl).1 "invalid syntax" rfl
  exact h

/-- Claim C7 counterexample: a complex destination reaches the scalar
path, has no case in `unmarshalLiteral`'s switch, and is silently left
at its prior value with no error — the conversion is unsupported yet no
typed conversion failure is reported. -/
theorem unsupported_kind_silent_cex :
    unmarshalByType nameEnv 1 [leafNode "a" "x"] .tcomplex .vcomplex "t"
      = .res .vcomplex none := rfl

/-- Claim C8: the documented annotation ",[bang]" — empty primary
selector, so decode should proceed with the selection unchanged — makes
`preprocess` and `selector` read the first byte of the empty leading
token (`arr[offset][0]`), an index-out-of-range runtime panic, so any
struct field carrying such a tag panics instead of decoding. -/
theorem empty_lead_token_panics :
    (∀ env s, preprocess env ",[bang]" s = none) ∧
    selector ",[bang]" 0 = none ∧
    (∀ env recur stTy s name fty iv rest acc,
        structLoop env recur stTy s ((⟨name, ",[bang]", fty⟩, iv) :: rest) acc = .panic) :=
  ⟨fun _ _ => rfl, rfl, fun _ _ _ _ _ _ _ _ _ => rfl⟩

/-- Claim C9 (amended): the map pair loop stops at the first key or
value decode failure, wrapping it as `typeConversionError` on the map,
and the entries inserted for the earlier, successful pairs stay in the
map value (no rollback); on a key failure the wrap is built only after
the popped annotation's value function resolves, so that resolution must
not hit a panic case (it panics on a present-but-empty or lone-bracket
second token, and the decode then crashes instead of erroring). -/
theorem mapLoop_stops_at_first_failure (env : Env)
    (recur : List Node → Ty → Val → String → DRes)
    (mpTy kTy vTy : Ty) (tag valTag : String)
    (pre : List (Node × Val × Val)) (k : Node) (ks : List Node) (acc : List (Val × Val))
    (hpre : ∀ p ∈ pre, recur [p.1] kTy (zeroVal kTy) tag = .res p.2.1 none ∧
        recur [p.1] vTy (zeroVal vTy) valTag = .res p.2.2 none)
    (hfail : (∃ kv e vf, recur [k] kTy (zeroVal kTy) tag = .res kv (some e) ∧
        valFunc valTag = some vf) ∨
      (∃ kv vv e, recur [k] kTy (zeroVal kTy) tag = .res kv none ∧
        recur [k] vTy (zeroVal vTy) valTag = .res vv (some e))) :
    ∃ inner, mapLoop env recur mpTy kTy vTy tag valTag (pre.map Prod.fst ++ k :: ks) acc
      = .res (.vmap (pre.foldl (fun a p => setMapIndex a p.2.1 p.2.2) acc))
             (some (.can .typeConversionError (some mpTy) none none (some inner))) := by
  induction pre generalizing acc with
  | nil =>
    rcases hfail with ⟨kv, e, vf, h1, h2⟩ | ⟨kv, vv, e, h1, h2⟩
    · refine ⟨.can .mapKeyUnmarshalError (some mpTy) (some (applyVF vf [k]))
        (some (.key kv)) (some e), ?_⟩
      simp only [List.map_nil, List.nil_append, mapLoop, h1, h2, List.foldl_nil]
    · refine ⟨e, ?_⟩
      simp only [List.map_nil, List.nil_append, mapLoop, h1, h2, List.foldl_nil]
  | cons p pre ih =>
    obtain ⟨h1, h2⟩ := hpre p (by simp)
    simp only [List.map_cons, List.cons_append, mapLoop, h1, h2, List.foldl_cons]
    exact ih (setMapIndex acc p.2.1 p.2.2) fun q hq => hpre q (by simp [hq])

/-- Witness for `mapLoop_stops_at_first_failure`: the first key node
decodes to the pair ("1", 1); on the second the key "zz" decodes but the
integer value conversion fails, so the loop stops with the wrapped error
and the first pair already inserted. -/
theorem mapLoop_stops_at_first_failure_w :
    ∃ inner, mapLoop nameEnv (unmarshalByType nameEnv 1) (.tmap .tstr .tint)
        .tstr .tint "x,k" "x" [k1Node, k2Node] []
      = .res (.vmap [(.vstr "1", .vint 1)])
             (some (.can .typeConversionError (some (.tmap .tstr .tint)) none none
               (some inner))) := by
  have h := mapLoop_stops_at_first_failure nameEnv (unmarshalByType nameEnv 1)
    (.tmap .tstr .tint) .tstr .tint "x,k" "x"
    [(k1Node, .vstr "1", .vint 1)] k2Node [] []
    (fun p hp => by
      simp only [List.mem_singleton] at hp
      subst hp
      exact ⟨rfl, rfl⟩)
    (Or.inr ⟨.vstr "zz", .vint 0,
      .can .typeConversionError (some .tint) (some "zz") none (some (.leaf "invalid syntax")),
      rfl, rfl⟩)
  exact h

/-- Claim C9 counterexample: a mapping decode whose annotation has a
present-but-empty third token ("x,k,") passes the slot-1 check, but on
the first key decode failure the eager `valTag.valFunc()` call inside
the error construction reads the first byte of the popped annotation's
empty second token and panics — the decode crashes instead of
propagating a wrapped error. -/
theorem map_key_failure_panic_cex :
    unmarshalByType nameEnv 2 [Node.mk "root" [] "" (.cons k2Node .nil)]
      (.tmap .tint .tstr) (.vmap []) "x,k," = .panic := rfl
